import Mathlib

/-!
# Verification of a generic circular (ring) buffer

This file embeds the circular-buffer implementation
(`src/circularbuffer.rs`) into Lean: a `CircularBuffer` record mirrors the
Rust struct (`buffer : Vec<Option<T>>`, `size`, `head`, `tail`, `count`),
and each method is translated operation for operation.  Rust vector
indexing panics when the index is out of bounds and `%` panics on a zero
divisor, so every potentially panicking method returns `Option _`: `none`
models a panic/abort, `some _` a normal return.  `resize` returns
`Option (Except String _)`: the `Except.error` branch models the
recoverable `Err(String)` result of the Rust code, the outer `none` a
panic inside the copy loop.
-/

/-- Mirrors the Rust struct `CircularBuffer<T>`: a backing store of
optional slots plus the `size` (capacity), `head`, `tail` and `count`
cursors. -/
structure CircularBuffer (T : Type) where
  buffer : List (Option T)
  size : Nat
  head : Nat
  tail : Nat
  count : Nat
deriving DecidableEq

namespace CircularBuffer

variable {T : Type}

/-- Rust `self.buffer[i]` (read): panics (`none`) when `i` is out of
bounds, otherwise returns the slot content. -/
def getSlot (l : List (Option T)) (i : Nat) : Option (Option T) :=
  l.get? i

/-- Rust `self.buffer[i] = v` (write): panics (`none`) when `i` is out of
bounds, otherwise returns the updated store. -/
def setSlot (l : List (Option T)) (i : Nat) (v : Option T) : Option (List (Option T)) :=
  if i < l.length then some (l.set i v) else none

/-- `CircularBuffer::new(size)`: `assert!(size > 0)` aborts (`none`) on a
zero size, otherwise all slots start empty and the cursors at zero. -/
def new (size : Nat) : Option (CircularBuffer T) :=
  if size = 0 then none
  else some { buffer := List.replicate size none, size := size, head := 0, tail := 0, count := 0 }

/-- `CircularBuffer::is_full`. -/
def is_full (b : CircularBuffer T) : Bool :=
  b.count == b.size

/-- `CircularBuffer::is_empty`. -/
def is_empty (b : CircularBuffer T) : Bool :=
  b.count == 0

/-- `CircularBuffer::len`. -/
def len (b : CircularBuffer T) : Nat :=
  b.count

/-- `CircularBuffer::capacity`. -/
def capacity (b : CircularBuffer T) : Nat :=
  b.size

/-- `CircularBuffer::push(item)`: when full, advance `tail` (evicting the
oldest element), otherwise increment `count`; then write `item` at `head`
and advance `head`.  The `% self.size` operations panic on `size = 0` and
the write panics when `head` is out of bounds. -/
def push (b : CircularBuffer T) (item : T) : Option (CircularBuffer T) :=
  match (if b.is_full then
            (if b.size = 0 then none else some ((b.tail + 1) % b.size, b.count))
          else some (b.tail, b.count + 1) : Option (Nat × Nat)) with
  | none => none
  | some (tail1, count1) =>
    match setSlot b.buffer b.head (some item) with
    | none => none
    | some buf1 =>
      if b.size = 0 then none
      else some { buffer := buf1, size := b.size, head := (b.head + 1) % b.size,
                  tail := tail1, count := count1 }

/-- `CircularBuffer::pop()`: `None` on an empty buffer, otherwise `take`
the slot at `tail` (leaving `None` behind), advance `tail`, decrement
`count`, and return the taken value together with the new state. -/
def pop (b : CircularBuffer T) : Option (Option T × CircularBuffer T) :=
  if b.is_empty then some (none, b)
  else
    match getSlot b.buffer b.tail with
    | none => none
    | some item =>
      match setSlot b.buffer b.tail none with
      | none => none
      | some buf1 =>
        if b.size = 0 then none
        else some (item, { buffer := buf1, size := b.size, head := b.head,
                           tail := (b.tail + 1) % b.size, count := b.count - 1 })

/-- `CircularBuffer::peek()`: `None` on an empty buffer, otherwise the
slot content at `tail` (the read panics when `tail` is out of bounds). -/
def peek (b : CircularBuffer T) : Option (Option T) :=
  if b.is_empty then some none
  else getSlot b.buffer b.tail

/-- `CircularBuffer::clear()`: fresh all-`None` store, cursors reset,
capacity unchanged. -/
def clear (b : CircularBuffer T) : CircularBuffer T :=
  { buffer := List.replicate b.size none, size := b.size, head := 0, tail := 0, count := 0 }

/-- `CircularBuffer::contains(item)`: scans the whole raw slot storage
(`self.buffer.iter().any(...)`), occupied or not. -/
def contains [DecidableEq T] (b : CircularBuffer T) (item : T) : Bool :=
  b.buffer.any (fun v => v = some item)

/-- `CircularBuffer::iter()`: `self.buffer.iter().filter_map(|x| x.as_ref())`,
materialised as the list of values the iterator yields. -/
def iterList (b : CircularBuffer T) : List T :=
  b.buffer.filterMap id

/-- The copy loop of `shrink_to_fit`:
`for i in 0..count { new_buffer.push(self.buffer[(tail + i) % size].take()) }`.
Threads the source store (mutated by `take`) and the grown accumulator;
`none` models a panic (out-of-bounds read or `% 0`). -/
def shrinkLoop (src : List (Option T)) (tail size i : Nat) (acc : List (Option T)) :
    Nat → Option (List (Option T) × List (Option T))
  | 0 => some (src, acc)
  | n + 1 =>
    if size = 0 then none
    else
      match getSlot src ((tail + i) % size) with
      | none => none
      | some v =>
        match setSlot src ((tail + i) % size) none with
        | none => none
        | some src1 => shrinkLoop src1 tail size (i + 1) (acc ++ [v]) n

/-- `CircularBuffer::shrink_to_fit()`: when `count < size`, copy the
`count` logical slots into a fresh store of length exactly `count`, then
set `size = count`, `head = count`, `tail = 0`; otherwise do nothing. -/
def shrink_to_fit (b : CircularBuffer T) : Option (CircularBuffer T) :=
  if b.count < b.size then
    match shrinkLoop b.buffer b.tail b.size 0 [] b.count with
    | none => none
    | some (_, newBuf) =>
      some { buffer := newBuf, size := b.count, head := b.count, tail := 0, count := b.count }
  else some b

/-- The copy loop of `resize`:
`for i in 0..count { new_buffer[i] = self.buffer[(tail + i) % size].take() }`.
Rust evaluates the right-hand side (the `take`, which can panic on an
out-of-bounds read or `% 0`) before the destination write (which panics
when `i` is out of bounds in the new store). -/
def resizeLoop (src dst : List (Option T)) (tail size i : Nat) :
    Nat → Option (List (Option T) × List (Option T))
  | 0 => some (src, dst)
  | n + 1 =>
    if size = 0 then none
    else
      match getSlot src ((tail + i) % size) with
      | none => none
      | some v =>
        match setSlot src ((tail + i) % size) none with
        | none => none
        | some src1 =>
          match setSlot dst i v with
          | none => none
          | some dst1 => resizeLoop src1 dst1 tail size (i + 1) n

/-- The error message returned by `resize(0)`. -/
def invalidCapacityMsg : String :=
  "La taille du buffer doit être supérieure à 0."

/-- `CircularBuffer::resize(new_size)`: `Err` on `new_size == 0`,
otherwise copy the `count` logical elements to the front of a fresh
`new_size`-slot store and set `size = new_size`, `head = count`,
`tail = 0`. -/
def resize (b : CircularBuffer T) (new_size : Nat) : Option (Except String (CircularBuffer T)) :=
  if new_size = 0 then some (Except.error invalidCapacityMsg)
  else
    match resizeLoop b.buffer (List.replicate new_size none) b.tail b.size 0 b.count with
    | none => none
    | some (_, newBuf) =>
      some (Except.ok { buffer := newBuf, size := new_size, head := b.count,
                        tail := 0, count := b.count })

/-- Push a whole sequence of items, left to right (`none` as soon as one
push panics). -/
def pushAll (b : CircularBuffer T) : List T → Option (CircularBuffer T)
  | [] => some b
  | x :: xs =>
    match b.push x with
    | none => none
    | some b1 => pushAll b1 xs

/-- Pop `n` times, collecting the returned values in order. -/
def popN (b : CircularBuffer T) : Nat → Option (List (Option T) × CircularBuffer T)
  | 0 => some ([], b)
  | n + 1 =>
    match b.pop with
    | none => none
    | some (r, b1) =>
      match popN b1 n with
      | none => none
      | some (rs, b2) => some (r :: rs, b2)

/-- The logical contents of the buffer, oldest to newest: the values in
the `count` slots starting at `tail`, wrapping modulo `size`. -/
def toList (b : CircularBuffer T) : List T :=
  (List.range b.count).filterMap (fun i => (b.buffer.get? ((b.tail + i) % b.size)).getD none)

/-- The backing store determined by `tail`, `size` and the logical
contents `xs`: slot `j` holds `xs[(j + (size - tail)) % size]` when that
index is a logical position and `None` otherwise. -/
def mkBuf (tail size : Nat) (xs : List T) : List (Option T) :=
  (List.range size).map (fun j => xs.get? ((j + (size - tail)) % size))

/-- Write the values `vs` into `dst` at consecutive positions starting at
`i` (the effect of the `resize` copy loop on the destination store). -/
def overwriteFrom (dst : List (Option T)) (i : Nat) : List (Option T) → List (Option T)
  | [] => dst
  | v :: vs => overwriteFrom (dst.set i v) (i + 1) vs

/-- The well-formedness invariant tying a buffer state to its logical
contents `xs`: the cursors are in range, `head` is congruent to
`tail + count` (it equals `size` itself right after an exact-fit resize or
shrink), and the store holds exactly the elements of `xs` in the circular
window starting at `tail`. -/
def GoodState (b : CircularBuffer T) (xs : List T) : Prop :=
  xs.length = b.count ∧
  b.count ≤ b.size ∧
  b.buffer = mkBuf b.tail b.size xs ∧
  (b.size = 0 → b.tail = 0 ∧ b.head = 0) ∧
  (0 < b.size → b.tail < b.size ∧ b.head ≤ b.size ∧
    b.head % b.size = (b.tail + b.count) % b.size)

/-- A buffer state is valid when it is well formed for some logical
contents. -/
def Inv (b : CircularBuffer T) : Prop :=
  ∃ xs, GoodState b xs

/-- The states reachable from a (successful) construction through the
mutating operations, where each step returns normally (a panicking step
produces no successor state, and an `Err` from `resize` leaves the state
in place). -/
inductive Reachable : CircularBuffer T → Prop where
  | of_new : ∀ (n : Nat) (b : CircularBuffer T), new n = some b → Reachable b
  | of_push : ∀ (b : CircularBuffer T) (x : T) (b' : CircularBuffer T),
      Reachable b → b.push x = some b' → Reachable b'
  | of_pop : ∀ (b : CircularBuffer T) (r : Option T) (b' : CircularBuffer T),
      Reachable b → b.pop = some (r, b') → Reachable b'
  | of_clear : ∀ b : CircularBuffer T, Reachable b → Reachable b.clear
  | of_resize : ∀ (b : CircularBuffer T) (n : Nat) (b' : CircularBuffer T),
      Reachable b → b.resize n = some (Except.ok b') → Reachable b'
  | of_shrink : ∀ (b b' : CircularBuffer T),
      Reachable b → b.shrink_to_fit = some b' → Reachable b'

end CircularBuffer

namespace CircularBuffer

variable {T : Type}

/-! ## Circular-index arithmetic -/

theorem mod_shift_cancel {t k s : Nat} (ht : t < s) (hk : k < s) :
    ((t + k) % s + (s - t)) % s = k := by
  rw [Nat.mod_add_mod]
  have h1 : t + k + (s - t) = k + s := by omega
  rw [h1, Nat.add_mod_right, Nat.mod_eq_of_lt hk]

theorem mod_unshift {t j s : Nat} (ht : t < s) (hj : j < s) :
    (t + (j + (s - t)) % s) % s = j := by
  rw [Nat.add_mod_mod]
  have h1 : t + (j + (s - t)) = j + s := by omega
  rw [h1, Nat.add_mod_right, Nat.mod_eq_of_lt hj]

theorem window_inj {t s k1 k2 : Nat} (ht : t < s) (h1 : k1 < s) (h2 : k2 < s)
    (h : (t + k1) % s = (t + k2) % s) : k1 = k2 := by
  have e1 := mod_shift_cancel ht h1
  have e2 := mod_shift_cancel ht h2
  rw [h] at e1
  rw [← e1]
  exact e2

/-! ## The canonical store `mkBuf` -/

theorem mkBuf_length (t s : Nat) (xs : List T) : (mkBuf t s xs).length = s := by
  simp [mkBuf]

theorem mkBuf_get? {j s : Nat} (t : Nat) (xs : List T) (hj : j < s) :
    (mkBuf t s xs).get? j = some (xs.get? ((j + (s - t)) % s)) := by
  rw [mkBuf, List.get?_map, List.get?_range hj]
  rfl

theorem mkBuf_get?_window {t k s : Nat} (xs : List T) (ht : t < s) (hk : k < s) :
    (mkBuf t s xs).get? ((t + k) % s) = some (xs.get? k) := by
  have hs : 0 < s := Nat.lt_of_le_of_lt (Nat.zero_le t) ht
  have hj : (t + k) % s < s := Nat.mod_lt _ hs
  rw [mkBuf_get? t xs hj, mod_shift_cancel ht hk]

theorem ext_window {t s : Nat} {L1 L2 : List (Option T)} (ht : t < s)
    (h1 : L1.length = s) (h2 : L2.length = s)
    (h : ∀ k, k < s → L1.get? ((t + k) % s) = L2.get? ((t + k) % s)) : L1 = L2 := by
  apply List.ext_get?_iff.mpr
  intro j
  by_cases hj : j < s
  · have hk : (j + (s - t)) % s < s := Nat.mod_lt _ (by omega)
    have hh := h _ hk
    rwa [mod_unshift ht hj] at hh
  · rw [List.get?_eq_none.2 (by omega), List.get?_eq_none.2 (by omega)]

theorem mkBuf_nil (t s : Nat) : mkBuf t s ([] : List T) = List.replicate s none := by
  apply List.ext_get?_iff.mpr
  intro j
  by_cases hj : j < s
  · rw [mkBuf_get? t [] hj]
    simp [List.getElem?_replicate, hj]
  · rw [List.get?_eq_none.2 (by rw [mkBuf_length]; omega),
      List.get?_eq_none.2 (by rw [List.length_replicate]; omega)]

theorem good_fresh (n : Nat) :
    GoodState (⟨List.replicate n none, n, 0, 0, 0⟩ : CircularBuffer T) [] := by
  refine ⟨rfl, Nat.zero_le _, ?_, fun _ => ⟨rfl, rfl⟩, fun h => ⟨h, Nat.zero_le _, rfl⟩⟩
  exact (mkBuf_nil 0 n).symm

theorem new_eq {n : Nat} (hn : 0 < n) :
    (new n : Option (CircularBuffer T)) = some ⟨List.replicate n none, n, 0, 0, 0⟩ := by
  unfold new
  rw [if_neg (by omega)]

theorem good_buffer_length {b : CircularBuffer T} {xs : List T} (hg : GoodState b xs) :
    b.buffer.length = b.size := by
  rw [hg.2.2.1, mkBuf_length]

theorem good_clear (b : CircularBuffer T) : GoodState b.clear [] := by
  exact good_fresh b.size

theorem filterMap_get?_range (xs : List T) :
    (List.range xs.length).filterMap (fun i => xs.get? i) = xs := by
  induction xs with
  | nil => rfl
  | cons x xs ih =>
    rw [List.length_cons, List.range_succ_eq_map, List.filterMap_cons]
    simp only [List.get?]
    rw [List.filterMap_map]
    exact congrArg (x :: ·) ih

theorem toList_eq {b : CircularBuffer T} {xs : List T} (hg : GoodState b xs) :
    b.toList = xs := by
  obtain ⟨hlen, hcs, hbuf, h0, hpos⟩ := hg
  rcases Nat.eq_zero_or_pos b.size with hs | hs
  · have hc : b.count = 0 := by omega
    have hx : xs = [] := List.eq_nil_of_length_eq_zero (by omega)
    rw [toList, hc, hx]
    rfl
  · have ht := (hpos hs).1
    have hcongr : ∀ i ∈ List.range b.count,
        (b.buffer.get? ((b.tail + i) % b.size)).getD none = xs.get? i := by
      intro i hi
      rw [List.mem_range] at hi
      have hik : i < b.size := by omega
      rw [hbuf, mkBuf_get?_window xs ht hik]
      rfl
    rw [toList, List.filterMap_congr hcongr, ← hlen]
    exact filterMap_get?_range xs

/-! ## Pointwise update helpers -/

theorem get?_set_self {α : Type} {l : List α} {i : Nat} {a : α} (h : i < l.length) :
    (l.set i a).get? i = some a := by
  rw [List.get?_eq_getElem?]
  exact List.getElem?_set_self h

theorem get?_set_ne {α : Type} {l : List α} {i j : Nat} {a : α} (h : i ≠ j) :
    (l.set i a).get? j = l.get? j := by
  rw [List.get?_eq_getElem?, List.get?_eq_getElem?]
  exact List.getElem?_set_ne h

theorem get?_snoc_ne {α : Type} {xs : List α} {x : α} {m : Nat} (h : m ≠ xs.length) :
    (xs ++ [x]).get? m = xs.get? m := by
  by_cases hm : m < xs.length
  · exact List.get?_append hm
  · have h1 : xs.length ≤ m := by omega
    have h2 : (xs ++ [x]).length ≤ m := by
      rw [List.length_append, List.length_singleton]
      omega
    rw [List.get?_eq_none.2 h2, List.get?_eq_none.2 h1]

/-! ## `push` -/

theorem push_eq_notFull {b : CircularBuffer T} {x : T} (hnf : b.count ≠ b.size)
    (hh : b.head < b.buffer.length) (hs : b.size ≠ 0) :
    b.push x = some ⟨b.buffer.set b.head (some x), b.size, (b.head + 1) % b.size,
      b.tail, b.count + 1⟩ := by
  have hf : b.is_full = false := by
    simp only [is_full, beq_eq_false_iff_ne, ne_eq]
    exact hnf
  unfold push
  rw [hf]
  simp [setSlot, hh, hs]

theorem push_eq_full {b : CircularBuffer T} {x : T} (hfull : b.count = b.size)
    (hh : b.head < b.buffer.length) (hs : b.size ≠ 0) :
    b.push x = some ⟨b.buffer.set b.head (some x), b.size, (b.head + 1) % b.size,
      (b.tail + 1) % b.size, b.count⟩ := by
  have hf : b.is_full = true := by
    simp only [is_full, beq_iff_eq]
    exact hfull
  unfold push
  rw [hf]
  simp [setSlot, hh, hs]

theorem push_notFull_spec {b : CircularBuffer T} {xs : List T} (x : T)
    (hg : GoodState b xs) (hh : b.head < b.size) (hnf : b.count < b.size) :
    b.push x = some ⟨b.buffer.set b.head (some x), b.size, (b.head + 1) % b.size,
      b.tail, b.count + 1⟩ ∧
    GoodState (⟨b.buffer.set b.head (some x), b.size, (b.head + 1) % b.size,
      b.tail, b.count + 1⟩ : CircularBuffer T) (xs ++ [x]) := by
  obtain ⟨hlen, hcs, hbuf, h0, hpos⟩ := hg
  have hs : 0 < b.size := by omega
  obtain ⟨ht, hhle, hmod⟩ := hpos hs
  have hblen : b.buffer.length = b.size := by rw [hbuf, mkBuf_length]
  have hhead : b.head = (b.tail + b.count) % b.size := by
    rw [← Nat.mod_eq_of_lt hh]
    exact hmod
  refine ⟨push_eq_notFull (by omega) (by omega) (by omega), ?_, ?_, ?_, ?_, ?_⟩
  · show (xs ++ [x]).length = b.count + 1
    rw [List.length_append, List.length_singleton, hlen]
  · show b.count + 1 ≤ b.size
    omega
  · show b.buffer.set b.head (some x) = mkBuf b.tail b.size (xs ++ [x])
    rw [hbuf]
    apply ext_window ht
    · rw [List.length_set, mkBuf_length]
    · rw [mkBuf_length]
    · intro k hk
      rw [mkBuf_get?_window (xs ++ [x]) ht hk]
      by_cases hkc : k = b.count
      · subst hkc
        rw [hhead, get?_set_self (by rw [mkBuf_length]; exact Nat.mod_lt _ hs),
          ← hlen, List.get?_concat_length]
      · have hne : b.head ≠ (b.tail + k) % b.size := by
          rw [hhead]
          intro he
          exact hkc (window_inj ht (by omega) hk he).symm
        rw [get?_set_ne hne, mkBuf_get?_window xs ht hk, get?_snoc_ne (by omega)]
  · intro hz
    exact absurd (show b.size = 0 from hz) (by omega)
  · intro hsz
    refine ⟨ht, Nat.le_of_lt (Nat.mod_lt _ hs), ?_⟩
    show ((b.head + 1) % b.size) % b.size = (b.tail + (b.count + 1)) % b.size
    rw [Nat.mod_mod_of_dvd _ dvd_rfl, ← Nat.mod_add_mod, hmod, Nat.mod_add_mod,
      ← Nat.add_assoc]

theorem push_full_spec {b : CircularBuffer T} {xs : List T} (x : T)
    (hg : GoodState b xs) (hh : b.head < b.size) (hfull : b.count = b.size) :
    b.push x = some ⟨b.buffer.set b.head (some x), b.size, (b.head + 1) % b.size,
      (b.tail + 1) % b.size, b.count⟩ ∧
    GoodState (⟨b.buffer.set b.head (some x), b.size, (b.head + 1) % b.size,
      (b.tail + 1) % b.size, b.count⟩ : CircularBuffer T) (xs.drop 1 ++ [x]) := by
  obtain ⟨hlen, hcs, hbuf, h0, hpos⟩ := hg
  have hs : 0 < b.size := by omega
  obtain ⟨ht, hhle, hmod⟩ := hpos hs
  have hblen : b.buffer.length = b.size := by rw [hbuf, mkBuf_length]
  have hhead : b.head = b.tail := by
    have h1 : b.head % b.size = b.tail := by
      rw [hmod, hfull, Nat.add_mod_right, Nat.mod_eq_of_lt ht]
    rw [← Nat.mod_eq_of_lt hh, h1]
  have ht' : (b.tail + 1) % b.size < b.size := Nat.mod_lt _ hs
  refine ⟨push_eq_full hfull (by omega) (by omega), ?_, ?_, ?_, ?_, ?_⟩
  · show (xs.drop 1 ++ [x]).length = b.count
    rw [List.length_append, List.length_singleton, List.length_drop]
    omega
  · show b.count ≤ b.size
    omega
  · show b.buffer.set b.head (some x) = mkBuf ((b.tail + 1) % b.size) b.size (xs.drop 1 ++ [x])
    rw [hbuf]
    apply ext_window ht'
    · rw [List.length_set, mkBuf_length]
    · rw [mkBuf_length]
    · intro k hk
      rw [mkBuf_get?_window (xs.drop 1 ++ [x]) ht' hk]
      have hidx : ((b.tail + 1) % b.size + k) % b.size = (b.tail + (1 + k)) % b.size := by
        rw [Nat.mod_add_mod, Nat.add_assoc]
      rw [hidx]
      by_cases hke : k = b.size - 1
      · subst hke
        have hit : (b.tail + (1 + (b.size - 1))) % b.size = b.head := by
          rw [show 1 + (b.size - 1) = b.size by omega, Nat.add_mod_right,
            Nat.mod_eq_of_lt ht, hhead]
        rw [hit, get?_set_self (by rw [mkBuf_length]; omega)]
        have hdlen : (xs.drop 1).length = b.size - 1 := by
          rw [List.length_drop]
          omega
        rw [← hdlen, List.get?_concat_length]
      · have hne : b.head ≠ (b.tail + (1 + k)) % b.size := by
          rw [hhead]
          intro he
          have h2 : (b.tail + 0) % b.size = (b.tail + (1 + k)) % b.size := by
            rw [Nat.add_zero, Nat.mod_eq_of_lt ht]
            exact he
          have := window_inj ht (by omega) (by omega) h2
          omega
        rw [get?_set_ne hne, mkBuf_get?_window xs ht (by omega),
          get?_snoc_ne (by rw [List.length_drop]; omega),
          List.get?_drop]
  · intro hz
    exact absurd (show b.size = 0 from hz) (by omega)
  · intro hsz
    refine ⟨ht', Nat.le_of_lt (Nat.mod_lt _ hs), ?_⟩
    show ((b.head + 1) % b.size) % b.size = ((b.tail + 1) % b.size + b.count) % b.size
    rw [Nat.mod_mod_of_dvd _ dvd_rfl, Nat.mod_add_mod, hhead, hfull, Nat.add_mod_right]

/-! ## `pop` -/

theorem pop_eq_empty {b : CircularBuffer T} (hc : b.count = 0) : b.pop = some (none, b) := by
  have he : b.is_empty = true := by
    simp only [is_empty, beq_iff_eq]
    exact hc
  unfold pop
  rw [he]
  rfl

theorem pop_pos_spec {b : CircularBuffer T} {xs : List T} (hg : GoodState b xs)
    (hc : 0 < b.count) :
    ∃ x xs', xs = x :: xs' ∧
      b.pop = some (some x, ⟨b.buffer.set b.tail none, b.size, b.head,
        (b.tail + 1) % b.size, b.count - 1⟩) ∧
      GoodState (⟨b.buffer.set b.tail none, b.size, b.head,
        (b.tail + 1) % b.size, b.count - 1⟩ : CircularBuffer T) xs' := by
  obtain ⟨hlen, hcs, hbuf, h0, hpos⟩ := hg
  have hs : 0 < b.size := by omega
  obtain ⟨ht, hhle, hmod⟩ := hpos hs
  have hblen : b.buffer.length = b.size := by rw [hbuf, mkBuf_length]
  have ht' : (b.tail + 1) % b.size < b.size := Nat.mod_lt _ hs
  obtain ⟨x, xs', rfl⟩ : ∃ x xs', xs = x :: xs' := by
    cases xs with
    | nil =>
      rw [List.length_nil] at hlen
      omega
    | cons a l => exact ⟨a, l, rfl⟩
  have hlen' : xs'.length = b.count - 1 := by
    rw [List.length_cons] at hlen
    omega
  have hread : b.buffer.get? b.tail = some (some x) := by
    have h2 := mkBuf_get?_window (x :: xs') ht hs
    rw [Nat.add_zero, Nat.mod_eq_of_lt ht] at h2
    rw [hbuf, h2]
    rfl
  refine ⟨x, xs', rfl, ?_, ?_, ?_, ?_, ?_, ?_⟩
  · have he : b.is_empty = false := by
      simp only [is_empty, beq_eq_false_iff_ne, ne_eq]
      omega
    unfold pop
    rw [he]
    simp only [getSlot, setSlot, hread, hblen, ht, if_true, Bool.false_eq_true, if_false,
      if_pos ht, if_neg (Nat.pos_iff_ne_zero.mp hs)]
  · show xs'.length = b.count - 1
    exact hlen'
  · show b.count - 1 ≤ b.size
    omega
  · show b.buffer.set b.tail none = mkBuf ((b.tail + 1) % b.size) b.size xs'
    rw [hbuf]
    apply ext_window ht'
    · rw [List.length_set, mkBuf_length]
    · rw [mkBuf_length]
    · intro k hk
      rw [mkBuf_get?_window xs' ht' hk]
      have hidx : ((b.tail + 1) % b.size + k) % b.size = (b.tail + (1 + k)) % b.size := by
        rw [Nat.mod_add_mod, Nat.add_assoc]
      rw [hidx]
      by_cases hke : k = b.size - 1
      · subst hke
        have hit : (b.tail + (1 + (b.size - 1))) % b.size = b.tail := by
          rw [show 1 + (b.size - 1) = b.size by omega, Nat.add_mod_right,
            Nat.mod_eq_of_lt ht]
        rw [hit, get?_set_self (by rw [mkBuf_length]; omega),
          List.get?_eq_none.2 (by omega)]
      · have hne : b.tail ≠ (b.tail + (1 + k)) % b.size := by
          intro he
          have h2 : (b.tail + 0) % b.size = (b.tail + (1 + k)) % b.size := by
            rw [Nat.add_zero, Nat.mod_eq_of_lt ht]
            exact he
          have := window_inj ht (by omega) (by omega) h2
          omega
        rw [get?_set_ne hne, mkBuf_get?_window (x :: xs') ht (by omega)]
        show some ((x :: xs').get? (1 + k)) = some (xs'.get? k)
        rw [Nat.add_comm]
        rfl
  · intro hz
    exact absurd (show b.size = 0 from hz) (by omega)
  · intro hsz
    refine ⟨ht', hhle, ?_⟩
    show b.head % b.size = ((b.tail + 1) % b.size + (b.count - 1)) % b.size
    rw [Nat.mod_add_mod, show b.tail + 1 + (b.count - 1) = b.tail + b.count by omega]
    exact hmod

/-! ## The copy loops -/

theorem overwriteFrom_length (vs : List (Option T)) : ∀ (dst : List (Option T)) (i : Nat),
    (overwriteFrom dst i vs).length = dst.length := by
  induction vs with
  | nil =>
    intro dst i
    rfl
  | cons v vs ih =>
    intro dst i
    rw [show overwriteFrom dst i (v :: vs) = overwriteFrom (dst.set i v) (i + 1) vs from rfl,
      ih, List.length_set]

theorem overwriteFrom_get? (vs : List (Option T)) : ∀ (dst : List (Option T)) (i j : Nat),
    i + vs.length ≤ dst.length →
    (overwriteFrom dst i vs).get? j =
      if i ≤ j ∧ j < i + vs.length then vs.get? (j - i) else dst.get? j := by
  induction vs with
  | nil =>
    intro dst i j h
    rw [show overwriteFrom dst i [] = dst from rfl, if_neg (by simp)]
  | cons v vs ih =>
    intro dst i j h
    simp only [List.length_cons] at h ⊢
    rw [show overwriteFrom dst i (v :: vs) = overwriteFrom (dst.set i v) (i + 1) vs from rfl,
      ih _ _ _ (by rw [List.length_set]; omega)]
    by_cases h2 : j = i
    · subst h2
      rw [if_neg (by omega), if_pos (by omega), get?_set_self (by omega), Nat.sub_self]
      rfl
    · by_cases h1 : i + 1 ≤ j ∧ j < i + 1 + vs.length
      · rw [if_pos h1, if_pos (by omega), show j - i = (j - (i + 1)) + 1 by omega]
        rfl
      · rw [if_neg h1, get?_set_ne (by omega), if_neg (by omega)]

theorem resizeLoop_spec {tail size : Nat} (hs : 0 < size) :
    ∀ (n i : Nat) (src dst vs : List (Option T)),
      vs.length = n → n ≤ size →
      (∀ k, k < n → src.get? ((tail + (i + k)) % size) = vs.get? k) →
      i + n ≤ dst.length →
      ∃ src', resizeLoop src dst tail size i n = some (src', overwriteFrom dst i vs) := by
  intro n
  induction n with
  | zero =>
    intro i src dst vs hvs _ _ _
    have hnil : vs = [] := List.eq_nil_of_length_eq_zero hvs
    subst hnil
    exact ⟨src, rfl⟩
  | succ n ih =>
    intro i src dst vs hvs hns hread hdst
    obtain ⟨v, vs', rfl⟩ : ∃ v vs', vs = v :: vs' := by
      cases vs with
      | nil => exact absurd hvs (by simp)
      | cons a l => exact ⟨a, l, rfl⟩
    have hr0 : src.get? ((tail + i) % size) = some v := by
      have hx := hread 0 (by omega)
      rw [Nat.add_zero] at hx
      exact hx
    have hidx : (tail + i) % size < src.length := by
      by_contra hle
      rw [List.get?_eq_none.2 (by omega)] at hr0
      exact Option.noConfusion hr0
    have hreads : ∀ k, k < n →
        (src.set ((tail + i) % size) none).get? ((tail + (i + 1 + k)) % size) = vs'.get? k := by
      intro k hk
      have hne : (tail + i) % size ≠ (tail + (i + 1 + k)) % size := by
        intro he
        have he2 : (tail + i + (1 + k)) % size = (tail + i + 0) % size := by
          rw [Nat.add_zero, show tail + i + (1 + k) = tail + (i + 1 + k) by omega]
          exact he.symm
        have hml : Nat.ModEq size (1 + k) 0 :=
          Nat.ModEq.add_left_cancel' (tail + i) he2
        have hml2 : (1 + k) % size = 0 % size := hml
        rw [Nat.zero_mod, Nat.mod_eq_of_lt (by omega)] at hml2
        omega
      rw [get?_set_ne hne]
      have hx := hread (k + 1) (by omega)
      rw [show i + (k + 1) = i + 1 + k by omega] at hx
      exact hx
    obtain ⟨src', hsrc'⟩ := ih (i + 1) (src.set ((tail + i) % size) none) (dst.set i v) vs'
      (by simpa using hvs) (by omega) hreads (by rw [List.length_set]; omega)
    refine ⟨src', ?_⟩
    simp only [resizeLoop, getSlot, setSlot, if_neg (show ¬ size = 0 by omega), hr0,
      if_pos hidx, if_pos (show i < dst.length by omega)]
    exact hsrc'

theorem resizeLoop_none {tail size : Nat} (hs : 0 < size) :
    ∀ (n i : Nat) (src dst : List (Option T)),
      src.length = size → i ≤ dst.length → dst.length < i + n →
      resizeLoop src dst tail size i n = none := by
  intro n
  induction n with
  | zero =>
    intro i src dst _ h1 h2
    exact absurd h2 (by omega)
  | succ n ih =>
    intro i src dst hsrc h1 h2
    have hidx : (tail + i) % size < src.length := by
      rw [hsrc]
      exact Nat.mod_lt _ hs
    obtain ⟨v, hv⟩ : ∃ v, src.get? ((tail + i) % size) = some v := by
      cases hx : src.get? ((tail + i) % size) with
      | none =>
        rw [List.get?_eq_none] at hx
        omega
      | some v => exact ⟨v, rfl⟩
    simp only [resizeLoop, getSlot, setSlot, if_neg (show ¬ size = 0 by omega), hv,
      if_pos hidx]
    by_cases hi : i < dst.length
    · rw [if_pos hi]
      exact ih (i + 1) _ _ (by rw [List.length_set]; exact hsrc)
        (by rw [List.length_set]; omega) (by rw [List.length_set]; omega)
    · rw [if_neg hi]

theorem shrinkLoop_spec {tail size : Nat} (hs : 0 < size) :
    ∀ (n i : Nat) (src acc vs : List (Option T)),
      vs.length = n → n ≤ size →
      (∀ k, k < n → src.get? ((tail + (i + k)) % size) = vs.get? k) →
      ∃ src', shrinkLoop src tail size i acc n = some (src', acc ++ vs) := by
  intro n
  induction n with
  | zero =>
    intro i src acc vs hvs _ _
    have hnil : vs = [] := List.eq_nil_of_length_eq_zero hvs
    subst hnil
    rw [List.append_nil]
    exact ⟨src, rfl⟩
  | succ n ih =>
    intro i src acc vs hvs hns hread
    obtain ⟨v, vs', rfl⟩ : ∃ v vs', vs = v :: vs' := by
      cases vs with
      | nil => exact absurd hvs (by simp)
      | cons a l => exact ⟨a, l, rfl⟩
    have hr0 : src.get? ((tail + i) % size) = some v := by
      have hx := hread 0 (by omega)
      rw [Nat.add_zero] at hx
      exact hx
    have hidx : (tail + i) % size < src.length := by
      by_contra hle
      rw [List.get?_eq_none.2 (by omega)] at hr0
      exact Option.noConfusion hr0
    have hreads : ∀ k, k < n →
        (src.set ((tail + i) % size) none).get? ((tail + (i + 1 + k)) % size) = vs'.get? k := by
      intro k hk
      have hne : (tail + i) % size ≠ (tail + (i + 1 + k)) % size := by
        intro he
        have he2 : (tail + i + (1 + k)) % size = (tail + i + 0) % size := by
          rw [Nat.add_zero, show tail + i + (1 + k) = tail + (i + 1 + k) by omega]
          exact he.symm
        have hml : Nat.ModEq size (1 + k) 0 :=
          Nat.ModEq.add_left_cancel' (tail + i) he2
        have hml2 : (1 + k) % size = 0 % size := hml
        rw [Nat.zero_mod, Nat.mod_eq_of_lt (by omega)] at hml2
        omega
      rw [get?_set_ne hne]
      have hx := hread (k + 1) (by omega)
      rw [show i + (k + 1) = i + 1 + k by omega] at hx
      exact hx
    obtain ⟨src', hsrc'⟩ := ih (i + 1) (src.set ((tail + i) % size) none) (acc ++ [v]) vs'
      (by simpa using hvs) (by omega) hreads
    refine ⟨src', ?_⟩
    simp only [shrinkLoop, getSlot, setSlot, if_neg (show ¬ size = 0 by omega), hr0,
      if_pos hidx]
    rw [hsrc', List.append_assoc]
    rfl

/-! ## `resize` and `shrink_to_fit` -/

theorem good_window_reads {b : CircularBuffer T} {xs : List T}
    (hlen : xs.length = b.count) (hbuf : b.buffer = mkBuf b.tail b.size xs)
    (hcs : b.count ≤ b.size) (ht : b.tail < b.size) :
    ∀ k, k < b.count → b.buffer.get? ((b.tail + (0 + k)) % b.size) = (xs.map some).get? k := by
  intro k hk
  rw [Nat.zero_add, hbuf, mkBuf_get?_window xs ht (by omega), List.get?_map]
  cases hx : xs.get? k with
  | none =>
    rw [List.get?_eq_none] at hx
    omega
  | some a => rfl

theorem mkBuf_zero_tail {n : Nat} (xs : List T) (hln : xs.length ≤ n) :
    mkBuf 0 n xs = xs.map some ++ List.replicate (n - xs.length) none := by
  apply List.ext_get?_iff.mpr
  intro j
  by_cases hj : j < n
  · rw [mkBuf_get? 0 xs hj, Nat.sub_zero, Nat.add_mod_right, Nat.mod_eq_of_lt hj]
    by_cases hjc : j < xs.length
    · rw [List.get?_append (by rw [List.length_map]; omega), List.get?_map]
      cases hx : xs.get? j with
      | none =>
        rw [List.get?_eq_none] at hx
        omega
      | some a => rfl
    · rw [List.get?_append_right (by rw [List.length_map]; omega),
        List.get?_eq_none.2 (by omega)]
      rw [List.get?_eq_getElem?, List.getElem?_replicate,
        if_pos (by rw [List.length_map]; omega)]
  · rw [List.get?_eq_none.2 (by rw [mkBuf_length]; omega),
      List.get?_eq_none.2 (by rw [List.length_append, List.length_map, List.length_replicate]; omega)]

theorem resize_ok_spec {b : CircularBuffer T} {xs : List T} (hg : GoodState b xs)
    {n : Nat} (hn : 0 < n) (hcn : b.count ≤ n) :
    b.resize n = some (Except.ok ⟨mkBuf 0 n xs, n, b.count, 0, b.count⟩) ∧
    GoodState (⟨mkBuf 0 n xs, n, b.count, 0, b.count⟩ : CircularBuffer T) xs := by
  obtain ⟨hlen, hcs, hbuf, h0, hpos⟩ := hg
  constructor
  · unfold resize
    rw [if_neg (by omega)]
    rcases Nat.eq_zero_or_pos b.count with hc0 | hcpos
    · have hxnil : xs = [] := List.eq_nil_of_length_eq_zero (by omega)
      rw [hc0, hxnil, mkBuf_nil]
      rfl
    · have hs : 0 < b.size := by omega
      obtain ⟨ht, _, _⟩ := hpos hs
      obtain ⟨src', hloop⟩ := resizeLoop_spec hs b.count 0 b.buffer
        (List.replicate n none) (xs.map some)
        (by rw [List.length_map, hlen]) (by omega)
        (good_window_reads hlen hbuf hcs ht)
        (by rw [List.length_replicate]; omega)
      rw [hloop]
      have hbeq : overwriteFrom (List.replicate n none) 0 (xs.map some) = mkBuf 0 n xs := by
        apply List.ext_get?_iff.mpr
        intro j
        by_cases hj : j < n
        · rw [overwriteFrom_get? (xs.map some) (List.replicate n none) 0 j
            (by rw [List.length_replicate, List.length_map]; omega),
            mkBuf_get? 0 xs hj,
            show (j + (n - 0)) % n = j by
              rw [Nat.sub_zero, Nat.add_mod_right, Nat.mod_eq_of_lt hj]]
          by_cases hjc : j < xs.length
          · rw [if_pos ⟨Nat.zero_le _, by rw [Nat.zero_add, List.length_map]; omega⟩,
              Nat.sub_zero, List.get?_map]
            cases hx : xs.get? j with
            | none =>
              rw [List.get?_eq_none] at hx
              omega
            | some a => rfl
          · rw [if_neg (by rw [Nat.zero_add, List.length_map]; omega),
              List.get?_eq_none.2 (show xs.length ≤ j by omega)]
            rw [List.get?_eq_getElem?, List.getElem?_replicate, if_pos hj]
        · rw [List.get?_eq_none.2
            (by rw [overwriteFrom_length, List.length_replicate]; omega),
            List.get?_eq_none.2 (by rw [mkBuf_length]; omega)]
      rw [hbeq]
  · refine ⟨hlen, hcn, rfl, ?_, ?_⟩
    · intro hz
      exact absurd (show n = 0 from hz) (by omega)
    · intro hp
      refine ⟨show (0 : Nat) < n from hn, show b.count ≤ n from hcn, ?_⟩
      show b.count % n = (0 + b.count) % n
      rw [Nat.zero_add]

theorem shrink_lt_spec {b : CircularBuffer T} {xs : List T} (hg : GoodState b xs)
    (hlt : b.count < b.size) :
    b.shrink_to_fit = some ⟨xs.map some, b.count, b.count, 0, b.count⟩ ∧
    GoodState (⟨xs.map some, b.count, b.count, 0, b.count⟩ : CircularBuffer T) xs := by
  obtain ⟨hlen, hcs, hbuf, h0, hpos⟩ := hg
  have hs : 0 < b.size := by omega
  obtain ⟨ht, _, _⟩ := hpos hs
  constructor
  · unfold shrink_to_fit
    rw [if_pos hlt]
    rcases Nat.eq_zero_or_pos b.count with hc0 | hcpos
    · have hxnil : xs = [] := List.eq_nil_of_length_eq_zero (by omega)
      rw [hc0, hxnil]
      rfl
    · obtain ⟨src', hloop⟩ := shrinkLoop_spec hs b.count 0 b.buffer [] (xs.map some)
        (by rw [List.length_map, hlen]) (by omega)
        (good_window_reads hlen hbuf hcs ht)
      rw [List.nil_append] at hloop
      rw [hloop]
  · refine ⟨hlen, Nat.le_refl _, ?_, ?_, ?_⟩
    · show xs.map some = mkBuf 0 b.count xs
      rw [mkBuf_zero_tail xs (by omega), hlen, Nat.sub_self, List.replicate_zero,
        List.append_nil]
    · intro hz
      exact ⟨rfl, hz⟩
    · intro hp
      refine ⟨hp, Nat.le_refl _, ?_⟩
      show b.count % b.count = (0 + b.count) % b.count
      rw [Nat.zero_add]

theorem shrink_ge_spec {b : CircularBuffer T} (hge : ¬ b.count < b.size) :
    b.shrink_to_fit = some b := by
  unfold shrink_to_fit
  rw [if_neg hge]

/-! ## Inversion lemmas and the reachability invariant -/

theorem good_of_new {n : Nat} {b : CircularBuffer T} (h : new n = some b) :
    GoodState b [] := by
  unfold new at h
  by_cases hn : n = 0
  · rw [if_pos hn] at h
    exact Option.noConfusion h
  · rw [if_neg hn] at h
    rw [← Option.some.inj h]
    exact good_fresh n

theorem push_some_head_lt {b : CircularBuffer T} {x : T} {b' : CircularBuffer T}
    (h : b.push x = some b') : b.head < b.buffer.length := by
  by_contra hh
  have hset : setSlot b.buffer b.head (some x) = none := by
    rw [setSlot, if_neg hh]
  unfold push at h
  rw [hset] at h
  cases hif : (if b.is_full then
      (if b.size = 0 then none else some ((b.tail + 1) % b.size, b.count))
    else some (b.tail, b.count + 1) : Option (Nat × Nat)) with
  | none =>
    rw [hif] at h
    exact Option.noConfusion h
  | some p =>
    obtain ⟨t1, c1⟩ := p
    rw [hif] at h
    exact Option.noConfusion h

theorem good_of_push {b b' : CircularBuffer T} {xs : List T} {x : T}
    (hg : GoodState b xs) (h : b.push x = some b') : ∃ xs', GoodState b' xs' := by
  have hh : b.head < b.buffer.length := push_some_head_lt h
  have hblen : b.buffer.length = b.size := good_buffer_length hg
  have hcs : b.count ≤ b.size := hg.2.1
  by_cases hf : b.count = b.size
  · obtain ⟨heq, hgood⟩ := push_full_spec x hg (by omega) hf
    rw [heq] at h
    exact ⟨_, (Option.some.inj h) ▸ hgood⟩
  · obtain ⟨heq, hgood⟩ := push_notFull_spec x hg (by omega) (by omega)
    rw [heq] at h
    exact ⟨_, (Option.some.inj h) ▸ hgood⟩

theorem good_of_pop {b b' : CircularBuffer T} {xs : List T} {r : Option T}
    (hg : GoodState b xs) (h : b.pop = some (r, b')) : ∃ xs', GoodState b' xs' := by
  rcases Nat.eq_zero_or_pos b.count with hc | hc
  · rw [pop_eq_empty hc] at h
    have h2 : b = b' := ((Prod.mk.injEq _ _ _ _).mp (Option.some.inj h)).2
    exact ⟨xs, h2 ▸ hg⟩
  · obtain ⟨x, xs', hxs, heq, hgood⟩ := pop_pos_spec hg hc
    rw [heq] at h
    have h2 := ((Prod.mk.injEq _ _ _ _).mp (Option.some.inj h)).2
    exact ⟨xs', h2 ▸ hgood⟩

theorem resize_ok_inv {b : CircularBuffer T} {xs : List T} {n : Nat} {b' : CircularBuffer T}
    (hg : GoodState b xs) (h : b.resize n = some (Except.ok b')) :
    0 < n ∧ b.count ≤ n := by
  have hn : 0 < n := by
    by_contra hn
    have hn0 : n = 0 := by omega
    subst hn0
    unfold resize at h
    rw [if_pos rfl] at h
    exact Except.noConfusion (Option.some.inj h)
  refine ⟨hn, ?_⟩
  by_contra hcn
  have hcn' : n < b.count := by omega
  have hs : 0 < b.size := by
    have := hg.2.1
    omega
  have hnone := @resizeLoop_none T b.tail b.size hs b.count 0 b.buffer
    (List.replicate n none) (good_buffer_length hg)
    (by rw [List.length_replicate]; omega) (by rw [List.length_replicate]; omega)
  unfold resize at h
  rw [if_neg (by omega), hnone] at h
  exact Option.noConfusion h

theorem good_of_resize {b b' : CircularBuffer T} {xs : List T} {n : Nat}
    (hg : GoodState b xs) (h : b.resize n = some (Except.ok b')) :
    ∃ xs', GoodState b' xs' := by
  obtain ⟨hn, hcn⟩ := resize_ok_inv hg h
  obtain ⟨heq, hgood⟩ := resize_ok_spec hg hn hcn
  rw [heq] at h
  have h2 := Except.ok.inj (Option.some.inj h)
  exact ⟨xs, h2 ▸ hgood⟩

theorem good_of_shrink {b b' : CircularBuffer T} {xs : List T}
    (hg : GoodState b xs) (h : b.shrink_to_fit = some b') : ∃ xs', GoodState b' xs' := by
  by_cases hlt : b.count < b.size
  · obtain ⟨heq, hgood⟩ := shrink_lt_spec hg hlt
    rw [heq] at h
    exact ⟨xs, (Option.some.inj h) ▸ hgood⟩
  · rw [shrink_ge_spec hlt] at h
    exact ⟨xs, (Option.some.inj h) ▸ hg⟩

theorem reachable_good {b : CircularBuffer T} (h : Reachable b) :
    ∃ xs, GoodState b xs := by
  induction h with
  | of_new n b hn => exact ⟨[], good_of_new hn⟩
  | of_push b x b' _ hp ih =>
    obtain ⟨xs, hg⟩ := ih
    exact good_of_push hg hp
  | of_pop b r b' _ hp ih =>
    obtain ⟨xs, hg⟩ := ih
    exact good_of_pop hg hp
  | of_clear b _ _ => exact ⟨[], good_clear b⟩
  | of_resize b n b' _ hr ih =>
    obtain ⟨xs, hg⟩ := ih
    exact good_of_resize hg hr
  | of_shrink b b' _ hs ih =>
    obtain ⟨xs, hg⟩ := ih
    exact good_of_shrink hg hs

theorem reachable_inv {b : CircularBuffer T} (h : Reachable b) : Inv b :=
  reachable_good h

/-! ## Sequences of operations -/

theorem pushAll_spec : ∀ (zs : List T) (b : CircularBuffer T) (ys : List T),
    GoodState b ys → b.head < b.size → ys.length + zs.length ≤ b.size →
    ∃ b', pushAll b zs = some b' ∧ GoodState b' (ys ++ zs) ∧ b'.head < b'.size ∧
      b'.size = b.size ∧ b'.count = b.count + zs.length := by
  intro zs
  induction zs with
  | nil =>
    intro b ys hg hh _
    exact ⟨b, rfl, by rw [List.append_nil]; exact hg, hh, rfl, rfl⟩
  | cons z zs ih =>
    intro b ys hg hh hcap
    have hlen := hg.1
    have hcs := hg.2.1
    simp only [List.length_cons] at hcap
    have hcnt : b.count < b.size := by omega
    obtain ⟨heq, hgood⟩ := push_notFull_spec z hg hh hcnt
    have hs : 0 < b.size := by omega
    have hh' : (b.head + 1) % b.size < b.size := Nat.mod_lt _ hs
    obtain ⟨b', hall, hgood', hh'', hsz, hcnt'⟩ := ih _ (ys ++ [z]) hgood hh'
      (by show (ys ++ [z]).length + zs.length ≤ b.size
          simp only [List.length_append, List.length_cons, List.length_nil]
          omega)
    have hsz' : b'.size = b.size := hsz
    have hcnt'' : b'.count = b.count + 1 + zs.length := hcnt'
    refine ⟨b', ?_, ?_, hh'', hsz', by simp only [List.length_cons]; omega⟩
    · show (match b.push z with
        | none => none
        | some b1 => pushAll b1 zs) = some b'
      rw [heq]
      exact hall
    · have hassoc : (ys ++ [z]) ++ zs = ys ++ z :: zs := by simp
      exact hassoc ▸ hgood'

theorem popN_spec : ∀ (xs : List T) (b : CircularBuffer T),
    GoodState b xs →
    ∃ b', popN b xs.length = some (xs.map some, b') ∧ GoodState b' [] := by
  intro xs
  induction xs with
  | nil =>
    intro b hg
    exact ⟨b, rfl, hg⟩
  | cons x xs ih =>
    intro b hg
    have hlen := hg.1
    have hc : 0 < b.count := by
      simp only [List.length_cons] at hlen
      omega
    obtain ⟨x', xs', hxs, heq, hgood⟩ := pop_pos_spec hg hc
    obtain ⟨rfl, rfl⟩ : x' = x ∧ xs' = xs := by
      injection hxs with h1 h2
      exact ⟨h1.symm, h2.symm⟩
    obtain ⟨b', hrec, hgood'⟩ := ih _ hgood
    refine ⟨b', ?_, hgood'⟩
    simp only [List.length_cons, popN, heq, hrec, List.map_cons]

/-! ## Membership and iteration -/

theorem mem_mkBuf_iff {t s : Nat} {xs : List T} (ht : t < s) (hlen : xs.length ≤ s)
    {x : T} : some x ∈ mkBuf t s xs ↔ x ∈ xs := by
  constructor
  · intro hm
    obtain ⟨j, hj⟩ := List.mem_iff_get?.mp hm
    have hjs : j < s := by
      by_contra hjs
      rw [List.get?_eq_none.2 (by rw [mkBuf_length]; omega)] at hj
      exact Option.noConfusion hj
    rw [mkBuf_get? t xs hjs] at hj
    exact List.get?_mem (Option.some.inj hj)
  · intro hm
    obtain ⟨k, hk⟩ := List.mem_iff_get?.mp hm
    have hkl : k < xs.length := by
      by_contra hkl
      rw [List.get?_eq_none.2 (by omega)] at hk
      exact Option.noConfusion hk
    have hw := mkBuf_get?_window xs ht (show k < s by omega)
    rw [hk] at hw
    exact List.mem_iff_get?.mpr ⟨(t + k) % s, hw⟩

theorem contains_iff_mem_buffer [DecidableEq T] (b : CircularBuffer T) (x : T) :
    b.contains x = true ↔ some x ∈ b.buffer := by
  simp only [contains, List.any_eq_true, decide_eq_true_eq]
  constructor
  · rintro ⟨v, hv, rfl⟩
    exact hv
  · intro hm
    exact ⟨some x, hm, rfl⟩

theorem mkBuf_rotation {t s : Nat} (xs : List T) (ht : t < s) :
    mkBuf t s xs = (mkBuf 0 s xs).drop (s - t) ++ (mkBuf 0 s xs).take (s - t) := by
  have hlen0 : (mkBuf 0 s xs).length = s := mkBuf_length 0 s xs
  apply List.ext_get?_iff.mpr
  intro j
  by_cases hj : j < s
  · rw [mkBuf_get? t xs hj]
    by_cases hjt : j < t
    · have hL : (j + (s - t)) % s = s - t + j := by
        rw [Nat.mod_eq_of_lt (by omega)]
        omega
      have hR : (s - t + j + (s - 0)) % s = s - t + j := by
        rw [Nat.sub_zero, Nat.add_mod_right, Nat.mod_eq_of_lt (by omega)]
      rw [List.get?_append (by rw [List.length_drop, hlen0]; omega), List.get?_drop,
        mkBuf_get? 0 xs (show s - t + j < s by omega), hR, hL]
    · have hL : (j + (s - t)) % s = j - t := by
        rw [show j + (s - t) = j - t + s by omega, Nat.add_mod_right,
          Nat.mod_eq_of_lt (by omega)]
      have hR : (j - t + (s - 0)) % s = j - t := by
        rw [Nat.sub_zero, Nat.add_mod_right, Nat.mod_eq_of_lt (by omega)]
      rw [List.get?_append_right (by rw [List.length_drop, hlen0]; omega),
        List.length_drop, hlen0, show s - (s - t) = t by omega,
        List.get?_take (show j - t < s - t by omega),
        mkBuf_get? 0 xs (show j - t < s by omega), hR, hL]
  · rw [List.get?_eq_none.2 (by rw [mkBuf_length]; omega),
      List.get?_eq_none.2 (by
        rw [List.length_append, List.length_drop, List.length_take, hlen0]
        omega)]

theorem filterMap_id_replicate_none : ∀ n : Nat,
    (List.replicate n (none : Option T)).filterMap id = [] := by
  intro n
  induction n with
  | zero => rfl
  | succ n ih =>
    rw [List.replicate_succ, List.filterMap_cons]
    exact ih

theorem filterMap_id_mkBuf_zero {s : Nat} (xs : List T) (hlen : xs.length ≤ s) :
    (mkBuf 0 s xs).filterMap id = xs := by
  rw [mkBuf_zero_tail xs hlen, List.filterMap_append, filterMap_id_replicate_none,
    List.append_nil, List.filterMap_map]
  exact List.filterMap_some xs

theorem iter_perm {b : CircularBuffer T} {xs : List T} (hg : GoodState b xs) :
    b.iterList.Perm xs := by
  obtain ⟨hlen, hcs, hbuf, h0, hpos⟩ := hg
  rcases Nat.eq_zero_or_pos b.size with hs | hs
  · have hxs : xs = [] := List.eq_nil_of_length_eq_zero (by omega)
    rw [iterList, hbuf, hxs, hs]
    exact List.Perm.refl _
  · obtain ⟨ht, _, _⟩ := hpos hs
    rw [iterList, hbuf, mkBuf_rotation xs ht, List.filterMap_append]
    have hfull : ((mkBuf 0 b.size xs).take (b.size - b.tail)).filterMap id ++
        ((mkBuf 0 b.size xs).drop (b.size - b.tail)).filterMap id = xs := by
      rw [← List.filterMap_append, List.take_append_drop,
        filterMap_id_mkBuf_zero xs (by omega)]
    have hperm : List.Perm
        (((mkBuf 0 b.size xs).drop (b.size - b.tail)).filterMap id ++
          ((mkBuf 0 b.size xs).take (b.size - b.tail)).filterMap id)
        (((mkBuf 0 b.size xs).take (b.size - b.tail)).filterMap id ++
          ((mkBuf 0 b.size xs).drop (b.size - b.tail)).filterMap id) :=
      List.perm_append_comm
    rw [hfull] at hperm
    exact hperm

/-! ## Field inversions for successful operations -/

theorem push_some_size {b b' : CircularBuffer T} {x : T} (h : b.push x = some b') :
    b'.size = b.size := by
  unfold push at h
  cases hif : (if b.is_full then
      (if b.size = 0 then none else some ((b.tail + 1) % b.size, b.count))
    else some (b.tail, b.count + 1) : Option (Nat × Nat)) with
  | none =>
    rw [hif] at h
    exact Option.noConfusion h
  | some p =>
    obtain ⟨t1, c1⟩ := p
    rw [hif] at h
    cases hset : setSlot b.buffer b.head (some x) with
    | none =>
      rw [hset] at h
      exact Option.noConfusion h
    | some buf1 =>
      rw [hset] at h
      have h2 : (if b.size = 0 then none
          else some { buffer := buf1, size := b.size, head := (b.head + 1) % b.size,
                      tail := t1, count := c1 } : Option (CircularBuffer T)) = some b' := h
      by_cases hs : b.size = 0
      · rw [if_pos hs] at h2
        exact Option.noConfusion h2
      · rw [if_neg hs] at h2
        rw [← Option.some.inj h2]

theorem pop_some_size {b b' : CircularBuffer T} {r : Option T}
    (h : b.pop = some (r, b')) : b'.size = b.size := by
  unfold pop at h
  cases he : b.is_empty with
  | true =>
    rw [he] at h
    simp only [if_true] at h
    rw [← ((Prod.mk.injEq _ _ _ _).mp (Option.some.inj h)).2]
  | false =>
    rw [he] at h
    simp only [Bool.false_eq_true, if_false] at h
    cases hget : getSlot b.buffer b.tail with
    | none =>
      rw [hget] at h
      exact Option.noConfusion h
    | some item =>
      rw [hget] at h
      cases hset : setSlot b.buffer b.tail none with
      | none =>
        rw [hset] at h
        exact Option.noConfusion h
      | some buf1 =>
        rw [hset] at h
        have h2 : (if b.size = 0 then none
            else some (item, { buffer := buf1, size := b.size, head := b.head,
                               tail := (b.tail + 1) % b.size, count := b.count - 1 }) :
            Option (Option T × CircularBuffer T)) = some (r, b') := h
        by_cases hs : b.size = 0
        · rw [if_pos hs] at h2
          exact Option.noConfusion h2
        · rw [if_neg hs] at h2
          rw [← ((Prod.mk.injEq _ _ _ _).mp (Option.some.inj h2)).2]

theorem resize_ok_fields {b b' : CircularBuffer T} {n : Nat}
    (h : b.resize n = some (Except.ok b')) :
    b'.size = n ∧ b'.tail = 0 ∧ b'.head = b.count ∧ b'.count = b.count ∧ 0 < n := by
  unfold resize at h
  by_cases hn : n = 0
  · rw [if_pos hn] at h
    exact Except.noConfusion (Option.some.inj h)
  · rw [if_neg hn] at h
    cases hloop : resizeLoop b.buffer (List.replicate n none) b.tail b.size 0 b.count with
    | none =>
      rw [hloop] at h
      exact Option.noConfusion h
    | some p =>
      obtain ⟨src', newBuf⟩ := p
      rw [hloop] at h
      rw [← Except.ok.inj (Option.some.inj h)]
      exact ⟨rfl, rfl, rfl, rfl, by omega⟩

theorem shrink_some_fields {b b' : CircularBuffer T} (h : b.shrink_to_fit = some b') :
    (b.count < b.size ∧ b'.size = b.count ∧ b'.tail = 0 ∧ b'.head = b.count ∧
      b'.count = b.count) ∨ (b.size ≤ b.count ∧ b' = b) := by
  unfold shrink_to_fit at h
  by_cases hlt : b.count < b.size
  · rw [if_pos hlt] at h
    cases hloop : shrinkLoop b.buffer b.tail b.size 0 [] b.count with
    | none =>
      rw [hloop] at h
      exact Option.noConfusion h
    | some p =>
      obtain ⟨src', newBuf⟩ := p
      rw [hloop] at h
      left
      rw [← Option.some.inj h]
      exact ⟨hlt, rfl, rfl, rfl, rfl⟩
  · rw [if_neg hlt] at h
    right
    exact ⟨by omega, (Option.some.inj h).symm⟩

theorem new_some_fields {n : Nat} {b : CircularBuffer T} (h : new n = some b) :
    b = ⟨List.replicate n none, n, 0, 0, 0⟩ ∧ 0 < n := by
  unfold new at h
  by_cases hn : n = 0
  · rw [if_pos hn] at h
    exact Option.noConfusion h
  · rw [if_neg hn] at h
    exact ⟨(Option.some.inj h).symm, by omega⟩

/-! ## Claim theorems -/

/-- C1: for every sequence of pushes of length at most the capacity applied
to a freshly constructed buffer, repeated `pop` returns exactly those
elements in the order they were pushed (FIFO), each wrapped in a non-empty
(`some`) result. -/
theorem fifo_push_pop {T : Type} (n : Nat) (b0 : CircularBuffer T) (xs : List T)
    (hnew : new n = some b0) (hlen : xs.length ≤ n) :
    ∃ b1 b2, pushAll b0 xs = some b1 ∧
      popN b1 xs.length = some (xs.map some, b2) := by
  obtain ⟨hb0, hn0⟩ := new_some_fields hnew
  have hg : GoodState b0 [] := by
    rw [hb0]
    exact good_fresh n
  subst hb0
  obtain ⟨b1, hall, hgood1, _, _, _⟩ := pushAll_spec xs _ [] hg
    (show (0 : Nat) < n from hn0) (show [].length + xs.length ≤ n by simp; omega)
  have hgood1' : GoodState b1 xs := by
    rw [← List.nil_append xs]
    exact hgood1
  obtain ⟨b2, hpop, _⟩ := popN_spec xs b1 hgood1'
  exact ⟨b1, b2, hall, hpop⟩

/-- C1 witness: capacity 3, pushes `[1, 2, 3]`, pops return
`[some 1, some 2, some 3]`. -/
theorem fifo_push_pop_witness :
    new 3 = some (⟨[none, none, none], 3, 0, 0, 0⟩ : CircularBuffer Nat) ∧
    ([1, 2, 3] : List Nat).length ≤ 3 ∧
    ∃ b1 b2,
      pushAll (⟨[none, none, none], 3, 0, 0, 0⟩ : CircularBuffer Nat) [1, 2, 3] = some b1 ∧
      popN b1 ([1, 2, 3] : List Nat).length = some ([1, 2, 3].map some, b2) :=
  ⟨rfl, by decide, fifo_push_pop 3 _ [1, 2, 3] rfl (by decide)⟩

/-- C2 counterexample: the state `⟨[some 10], 1, 1, 0, 1⟩` (reachable via
`new 1`, `push 10`, `resize 1`) is full, yet `push 60` panics with an
out-of-bounds write (`head = capacity`) instead of evicting the oldest
element and leaving `len = capacity`. -/
theorem push_full_cex :
    Reachable (⟨[some 10], 1, 1, 0, 1⟩ : CircularBuffer Nat) ∧
    (⟨[some 10], 1, 1, 0, 1⟩ : CircularBuffer Nat).count =
      (⟨[some 10], 1, 1, 0, 1⟩ : CircularBuffer Nat).size ∧
    push (⟨[some 10], 1, 1, 0, 1⟩ : CircularBuffer Nat) 60 = none := by
  refine ⟨?_, rfl, rfl⟩
  exact Reachable.of_resize ⟨[some 10], 1, 0, 0, 1⟩ 1 _
    (Reachable.of_push ⟨[none], 1, 0, 0, 0⟩ 10 _ (Reachable.of_new 1 _ rfl) rfl) rfl

/-- C2 (amended): for every reachable full buffer whose `head` is still a
valid slot index (`head < capacity`; `head = capacity` is reachable only
through `resize`/`shrink_to_fit` to the exact count and makes `push`
panic), `push` evicts exactly the oldest logical element, keeps
`len = capacity`, and the logical sequence becomes the previous one with
the oldest removed and the item appended; the concrete capacity-5
scenario with pushes 10..60 then `pop` behaves as specified. -/
theorem push_full_evicts_oldest :
    (∀ (T : Type) (b : CircularBuffer T) (x : T), Reachable b →
      b.count = b.size → b.head < b.size →
      ∃ b', b.push x = some b' ∧ b'.count = b.size ∧ Reachable b' ∧
        b'.toList = b.toList.drop 1 ++ [x]) ∧
    (∃ b5 b6 : CircularBuffer Nat,
      pushAll (⟨List.replicate 5 none, 5, 0, 0, 0⟩ : CircularBuffer Nat)
        [10, 20, 30, 40, 50, 60] = some b5 ∧
      b5.toList = [20, 30, 40, 50, 60] ∧ b5.len = 5 ∧
      b5.pop = some (some 20, b6) ∧ b6.toList = [30, 40, 50, 60]) := by
  constructor
  · intro T b x hr hf hh
    obtain ⟨xs, hg⟩ := reachable_good hr
    obtain ⟨heq, hgood⟩ := push_full_spec x hg hh hf
    refine ⟨_, heq, show b.count = b.size from hf,
      Reachable.of_push b x _ hr heq, ?_⟩
    rw [toList_eq hgood, toList_eq hg]
  · exact ⟨⟨[some 60, some 20, some 30, some 40, some 50], 5, 1, 1, 5⟩,
      ⟨[some 60, none, some 30, some 40, some 50], 5, 1, 2, 4⟩,
      rfl, rfl, rfl, rfl, rfl⟩

/-- C2 witness: pushing 9 into the reachable full buffer
`⟨[some 1, some 2], 2, 0, 0, 2⟩` evicts 1 and appends 9. -/
theorem push_full_evicts_oldest_witness :
    ∃ b', push (⟨[some 1, some 2], 2, 0, 0, 2⟩ : CircularBuffer Nat) 9 = some b' ∧
      b'.count = (⟨[some 1, some 2], 2, 0, 0, 2⟩ : CircularBuffer Nat).size ∧
      Reachable b' ∧
      b'.toList =
        (⟨[some 1, some 2], 2, 0, 0, 2⟩ : CircularBuffer Nat).toList.drop 1 ++ [9] :=
  push_full_evicts_oldest.1 Nat _ 9
    (Reachable.of_push ⟨[some 1, none], 2, 1, 0, 1⟩ 2 _
      (Reachable.of_push ⟨[none, none], 2, 0, 0, 0⟩ 1 _
        (Reachable.of_new 2 _ rfl) rfl) rfl)
    rfl (by decide)

/-- C3 counterexample: after `new 2`, `push 10`, `shrink_to_fit`, the
reachable state has `head = 1 = capacity`, so `head` is not a valid slot
index in `[0, capacity)`. -/
theorem cursor_bounds_cex :
    shrink_to_fit (⟨[some 10, none], 2, 1, 0, 1⟩ : CircularBuffer Nat) =
      some ⟨[some 10], 1, 1, 0, 1⟩ ∧
    Reachable (⟨[some 10], 1, 1, 0, 1⟩ : CircularBuffer Nat) ∧
    ¬ (⟨[some 10], 1, 1, 0, 1⟩ : CircularBuffer Nat).head <
      (⟨[some 10], 1, 1, 0, 1⟩ : CircularBuffer Nat).size := by
  refine ⟨rfl, ?_, by decide⟩
  exact Reachable.of_shrink ⟨[some 10, none], 2, 1, 0, 1⟩ _
    (Reachable.of_push ⟨[none, none], 2, 0, 0, 0⟩ 10 _ (Reachable.of_new 2 _ rfl) rfl) rfl

/-- C3 (amended): in every reachable state `tail < capacity` whenever
`capacity > 0` (and `tail = head = 0` when `capacity = 0`, which
`shrink_to_fit` on an empty buffer produces), while `head ≤ capacity` with
`head = capacity` reachable after `resize`/`shrink_to_fit` whose new
capacity equals `count`; `resize` (on success) and a shrinking
`shrink_to_fit` do set `tail = 0` and `head = count`. -/
theorem cursor_bounds :
    (∀ (T : Type) (b : CircularBuffer T), Reachable b →
      (0 < b.size → b.tail < b.size ∧ b.head ≤ b.size) ∧
      (b.size = 0 → b.tail = 0 ∧ b.head = 0)) ∧
    (∀ (T : Type) (b b' : CircularBuffer T) (n : Nat),
      b.resize n = some (Except.ok b') → b'.tail = 0 ∧ b'.head = b.count) ∧
    (∀ (T : Type) (b b' : CircularBuffer T), b.shrink_to_fit = some b' →
      (b'.tail = 0 ∧ b'.head = b.count) ∨ b' = b) := by
  refine ⟨?_, ?_, ?_⟩
  · intro T b hr
    obtain ⟨xs, ⟨hlen, hcs, hbuf, h0, hpos⟩⟩ := reachable_good hr
    exact ⟨fun hs => ⟨(hpos hs).1, (hpos hs).2.1⟩, h0⟩
  · intro T b b' n h
    obtain ⟨_, ht, hh, _, _⟩ := resize_ok_fields h
    exact ⟨ht, hh⟩
  · intro T b b' h
    rcases shrink_some_fields h with ⟨_, _, ht, hh, _⟩ | ⟨_, he⟩
    · exact Or.inl ⟨ht, hh⟩
    · exact Or.inr he

/-- C3 witness: the cursor bounds instantiated at the reachable state
`⟨[some 7], 1, 0, 0, 1⟩`. -/
theorem cursor_bounds_witness :
    (0 < (⟨[some 7], 1, 0, 0, 1⟩ : CircularBuffer Nat).size →
      (⟨[some 7], 1, 0, 0, 1⟩ : CircularBuffer Nat).tail <
        (⟨[some 7], 1, 0, 0, 1⟩ : CircularBuffer Nat).size ∧
      (⟨[some 7], 1, 0, 0, 1⟩ : CircularBuffer Nat).head ≤
        (⟨[some 7], 1, 0, 0, 1⟩ : CircularBuffer Nat).size) ∧
    ((⟨[some 7], 1, 0, 0, 1⟩ : CircularBuffer Nat).size = 0 →
      (⟨[some 7], 1, 0, 0, 1⟩ : CircularBuffer Nat).tail = 0 ∧
      (⟨[some 7], 1, 0, 0, 1⟩ : CircularBuffer Nat).head = 0) :=
  cursor_bounds.1 Nat _
    (Reachable.of_push ⟨[none], 1, 0, 0, 0⟩ 7 _ (Reachable.of_new 1 _ rfl) rfl)

/-- C4 counterexample: `shrink_to_fit` on the freshly constructed (empty)
buffer of capacity 1 yields a reachable state with `capacity = 0`,
violating `capacity ≥ 1`. -/
theorem capacity_positive_cex :
    shrink_to_fit (⟨[none], 1, 0, 0, 0⟩ : CircularBuffer Nat) = some ⟨[], 0, 0, 0, 0⟩ ∧
    Reachable (⟨[], 0, 0, 0, 0⟩ : CircularBuffer Nat) ∧
    (⟨[], 0, 0, 0, 0⟩ : CircularBuffer Nat).size = 0 := by
  refine ⟨rfl, ?_, rfl⟩
  exact Reachable.of_shrink ⟨[none], 1, 0, 0, 0⟩ _ (Reachable.of_new 1 _ rfl) rfl

/-- C4 (amended): `capacity ≥ 1` is established by construction and
preserved by `push`, `pop`, `clear` and successful `resize`, and by
`shrink_to_fit` on a non-empty buffer; but `shrink_to_fit` on an empty
buffer with `count < capacity` sets `capacity = 0`.  Moreover every
reachable state with `capacity = 0` is empty (`count = 0`). -/
theorem capacity_positive :
    (∀ (T : Type) (n : Nat) (b : CircularBuffer T), new n = some b → 1 ≤ b.size) ∧
    (∀ (T : Type) (b b' : CircularBuffer T) (x : T),
      1 ≤ b.size → b.push x = some b' → 1 ≤ b'.size) ∧
    (∀ (T : Type) (b b' : CircularBuffer T) (r : Option T),
      1 ≤ b.size → b.pop = some (r, b') → 1 ≤ b'.size) ∧
    (∀ (T : Type) (b : CircularBuffer T), 1 ≤ b.size → 1 ≤ b.clear.size) ∧
    (∀ (T : Type) (b b' : CircularBuffer T) (n : Nat),
      b.resize n = some (Except.ok b') → 1 ≤ b'.size) ∧
    (∀ (T : Type) (b b' : CircularBuffer T),
      1 ≤ b.size → 1 ≤ b.count → b.shrink_to_fit = some b' → 1 ≤ b'.size) ∧
    (∀ (T : Type) (b b' : CircularBuffer T),
      b.count = 0 → b.count < b.size → b.shrink_to_fit = some b' → b'.size = 0) ∧
    (∀ (T : Type) (b : CircularBuffer T), Reachable b → b.size = 0 → b.count = 0) := by
  refine ⟨?_, ?_, ?_, ?_, ?_, ?_, ?_, ?_⟩
  · intro T n b h
    obtain ⟨hb, hn⟩ := new_some_fields h
    rw [hb]
    exact hn
  · intro T b b' x hs h
    rw [push_some_size h]
    exact hs
  · intro T b b' r hs h
    rw [pop_some_size h]
    exact hs
  · intro T b hs
    exact hs
  · intro T b b' n h
    obtain ⟨hsz, _, _, _, hn⟩ := resize_ok_fields h
    omega
  · intro T b b' hs hc h
    rcases shrink_some_fields h with ⟨_, hsz, _, _, _⟩ | ⟨_, he⟩
    · omega
    · rw [he]
      exact hs
  · intro T b b' hc hlt h
    rcases shrink_some_fields h with ⟨_, hsz, _, _, _⟩ | ⟨hge, _⟩
    · omega
    · omega
  · intro T b hr hz
    obtain ⟨xs, ⟨hlen, hcs, _, _, _⟩⟩ := reachable_good hr
    omega

/-- C4 witness: preservation of `capacity ≥ 1` by a concrete `push`, and
the zero-capacity outcome of `shrink_to_fit` on a concrete empty buffer. -/
theorem capacity_positive_witness :
    1 ≤ (⟨[some 10], 1, 0, 0, 1⟩ : CircularBuffer Nat).size ∧
    (⟨[], 0, 0, 0, 0⟩ : CircularBuffer Nat).size = 0 :=
  ⟨capacity_positive.2.1 Nat ⟨[none], 1, 0, 0, 0⟩ ⟨[some 10], 1, 0, 0, 1⟩ 10
      (by decide) rfl,
    capacity_positive.2.2.2.2.2.2.1 Nat ⟨[none], 1, 0, 0, 0⟩ ⟨[], 0, 0, 0, 0⟩
      rfl (by decide) rfl⟩

/-- C5: for every reachable buffer and every `new_capacity` with
`0 < new_capacity < count`, `resize` is unguarded and its copy loop
indexes out of bounds in the new, shorter backing store: the call panics
(`none`) rather than returning. -/
theorem resize_small_oob {T : Type} (b : CircularBuffer T) (n : Nat)
    (hr : Reachable b) (hn : 0 < n) (hlt : n < b.count) : b.resize n = none := by
  obtain ⟨xs, hg⟩ := reachable_good hr
  have hcs : b.count ≤ b.size := hg.2.1
  have hs : 0 < b.size := by omega
  have hnone := @resizeLoop_none T b.tail b.size hs b.count 0 b.buffer
    (List.replicate n none) (good_buffer_length hg)
    (by rw [List.length_replicate]; omega) (by rw [List.length_replicate]; omega)
  unfold resize
  rw [if_neg (by omega), hnone]

/-- C5 witness: the reachable two-element buffer of capacity 2 panics on
`resize 1`. -/
theorem resize_small_oob_witness :
    resize (⟨[some 1, some 2], 2, 0, 0, 2⟩ : CircularBuffer Nat) 1 = none :=
  resize_small_oob _ 1
    (Reachable.of_push ⟨[some 1, none], 2, 1, 0, 1⟩ 2 _
      (Reachable.of_push ⟨[none, none], 2, 0, 0, 0⟩ 1 _
        (Reachable.of_new 2 _ rfl) rfl) rfl)
    (by decide) (by decide)

/-- C6 counterexample: the freshly constructed capacity-1 buffer has
`len = 0`, and `0 ≥ len`, yet `resize 0` does not succeed — it returns the
`InvalidCapacity` error. -/
theorem resize_ge_cex :
    Reachable (⟨[none], 1, 0, 0, 0⟩ : CircularBuffer Nat) ∧
    (⟨[none], 1, 0, 0, 0⟩ : CircularBuffer Nat).len ≤ 0 ∧
    resize (⟨[none], 1, 0, 0, 0⟩ : CircularBuffer Nat) 0 =
      some (Except.error invalidCapacityMsg) :=
  ⟨Reachable.of_new 1 _ rfl, Nat.le_refl 0, rfl⟩

/-- C6 (amended): for every reachable buffer and every `n` with
`n ≥ len()` and `n ≥ 1` (the claim fails only at `n = 0`, where `resize`
returns the `InvalidCapacity` error instead of succeeding), `resize n`
succeeds, preserves `len` and the logical contents, and popping every
element afterwards yields exactly the same sequence as popping every
element before. -/
theorem resize_ge_preserves {T : Type} (b : CircularBuffer T) (n : Nat)
    (hr : Reachable b) (hc : b.len ≤ n) (hn : 1 ≤ n) :
    ∃ b', b.resize n = some (Except.ok b') ∧ b'.len = b.len ∧ Reachable b' ∧
      b'.toList = b.toList ∧
      ∃ rs c c', popN b b.len = some (rs, c) ∧ popN b' b.len = some (rs, c') := by
  obtain ⟨xs, hg⟩ := reachable_good hr
  have hlen := hg.1
  obtain ⟨heq, hgood⟩ := resize_ok_spec hg (by omega) (show b.count ≤ n from hc)
  refine ⟨_, heq, rfl, Reachable.of_resize b n _ hr heq, ?_, ?_⟩
  · rw [toList_eq hgood, toList_eq hg]
  · obtain ⟨c, hpopb, _⟩ := popN_spec xs b hg
    obtain ⟨c', hpopb', _⟩ := popN_spec xs _ hgood
    rw [hlen] at hpopb hpopb'
    refine ⟨xs.map some, c, c', ?_, ?_⟩
    · exact hpopb
    · exact hpopb'

/-- C6 witness: growing the reachable one-element capacity-1 buffer to
capacity 3 preserves the contents and the popped sequence. -/
theorem resize_ge_preserves_witness :
    ∃ b', resize (⟨[some 7], 1, 0, 0, 1⟩ : CircularBuffer Nat) 3 =
        some (Except.ok b') ∧
      b'.len = (⟨[some 7], 1, 0, 0, 1⟩ : CircularBuffer Nat).len ∧ Reachable b' ∧
      b'.toList = (⟨[some 7], 1, 0, 0, 1⟩ : CircularBuffer Nat).toList ∧
      ∃ rs c c',
        popN (⟨[some 7], 1, 0, 0, 1⟩ : CircularBuffer Nat)
          (⟨[some 7], 1, 0, 0, 1⟩ : CircularBuffer Nat).len = some (rs, c) ∧
        popN b' (⟨[some 7], 1, 0, 0, 1⟩ : CircularBuffer Nat).len = some (rs, c') :=
  resize_ge_preserves _ 3
    (Reachable.of_push ⟨[none], 1, 0, 0, 0⟩ 7 _ (Reachable.of_new 1 _ rfl) rfl)
    (by decide) (by decide)

/-- C7: for every buffer state, `resize 0` returns the recoverable
`InvalidCapacity` error (an `Err` result, not a panic), and — the call
being pure in the embedding, the state it was given is untouched — every
reachable such state is still valid. -/
theorem resize_zero_error {T : Type} (b : CircularBuffer T) :
    b.resize 0 = some (Except.error invalidCapacityMsg) ∧ (Reachable b → Inv b) := by
  constructor
  · unfold resize
    rw [if_pos rfl]
  · exact reachable_inv

/-- C7 witness: `resize 0` on the fresh capacity-1 buffer errors and the
buffer is still a valid state. -/
theorem resize_zero_error_witness :
    resize (⟨[none], 1, 0, 0, 0⟩ : CircularBuffer Nat) 0 =
      some (Except.error invalidCapacityMsg) ∧
    Inv (⟨[none], 1, 0, 0, 0⟩ : CircularBuffer Nat) :=
  ⟨(resize_zero_error _).1, (resize_zero_error _).2 (Reachable.of_new 1 _ rfl)⟩

/-- C8 counterexample (negation of the claimed stale-slot false positive):
there is no reachable state and value for which `contains` returns true
although the value is not a logical element — `pop`, `resize` and
`shrink_to_fit` clear slots with `take`, so no stale value survives. -/
theorem contains_stale_cex :
    ¬ ∃ (b : CircularBuffer Nat) (x : Nat), Reachable b ∧ b.contains x = true ∧
      x ∉ b.toList := by
  rintro ⟨b, x, hr, hc, hn⟩
  obtain ⟨xs, hg⟩ := reachable_good hr
  obtain ⟨hlen, hcs, hbuf, h0, hpos⟩ := hg
  rw [contains_iff_mem_buffer] at hc
  rcases Nat.eq_zero_or_pos b.size with hs | hs
  · rw [hbuf, hs] at hc
    have hnil : mkBuf b.tail 0 xs = [] := rfl
    rw [hnil] at hc
    exact absurd hc (List.not_mem_nil _)
  · obtain ⟨ht, _, _⟩ := hpos hs
    rw [hbuf, mem_mkBuf_iff ht (by omega)] at hc
    refine hn ?_
    rw [toList_eq ⟨hlen, hcs, hbuf, h0, hpos⟩]
    exact hc

/-- C8 (amended): `contains` does scan the entire raw slot storage — it
reports whether any slot holds an equal value — but in every reachable
state the non-logical slots are all `None` (removal is by `take`), so
`contains x` is true exactly when `x` is a logical element; the claimed
reachable stale-slot false positive does not exist. -/
theorem contains_agrees_logical {T : Type} [DecidableEq T]
    (b : CircularBuffer T) (x : T) :
    (b.contains x = true ↔ some x ∈ b.buffer) ∧
    (Reachable b → (b.contains x = true ↔ x ∈ b.toList)) := by
  refine ⟨contains_iff_mem_buffer b x, fun hr => ?_⟩
  obtain ⟨xs, hg⟩ := reachable_good hr
  obtain ⟨hlen, hcs, hbuf, h0, hpos⟩ := hg
  rw [contains_iff_mem_buffer, toList_eq ⟨hlen, hcs, hbuf, h0, hpos⟩, hbuf]
  rcases Nat.eq_zero_or_pos b.size with hs | hs
  · have hxs : xs = [] := List.eq_nil_of_length_eq_zero (by omega)
    rw [hs, hxs]
    have hnil : mkBuf b.tail 0 ([] : List T) = [] := rfl
    rw [hnil]
    simp
  · exact mem_mkBuf_iff (hpos hs).1 (by omega)

/-- C8 witness: on the reachable state `⟨[some 7], 1, 0, 0, 1⟩`,
`contains 7` agrees with raw-storage membership and with logical
membership. -/
theorem contains_agrees_logical_witness :
    ((⟨[some 7], 1, 0, 0, 1⟩ : CircularBuffer Nat).contains 7 = true ↔
      some 7 ∈ (⟨[some 7], 1, 0, 0, 1⟩ : CircularBuffer Nat).buffer) ∧
    ((⟨[some 7], 1, 0, 0, 1⟩ : CircularBuffer Nat).contains 7 = true ↔
      7 ∈ (⟨[some 7], 1, 0, 0, 1⟩ : CircularBuffer Nat).toList) :=
  ⟨(contains_agrees_logical _ 7).1,
    (contains_agrees_logical _ 7).2
      (Reachable.of_push ⟨[none], 1, 0, 0, 0⟩ 7 _ (Reachable.of_new 1 _ rfl) rfl)⟩

/-- C9 counterexample: on the fresh capacity-1 buffer (`count = 0 <
capacity`), `shrink_to_fit` succeeds and sets the capacity to 0, while
`resize count = resize 0` returns the `InvalidCapacity` error — the two
are not equivalent when `count = 0`. -/
theorem shrink_resize_cex :
    (⟨[none], 1, 0, 0, 0⟩ : CircularBuffer Nat).count <
      (⟨[none], 1, 0, 0, 0⟩ : CircularBuffer Nat).size ∧
    shrink_to_fit (⟨[none], 1, 0, 0, 0⟩ : CircularBuffer Nat) =
      some ⟨[], 0, 0, 0, 0⟩ ∧
    resize (⟨[none], 1, 0, 0, 0⟩ : CircularBuffer Nat)
      (⟨[none], 1, 0, 0, 0⟩ : CircularBuffer Nat).count =
      some (Except.error invalidCapacityMsg) :=
  ⟨by decide, rfl, rfl⟩

/-- C9 (amended): on every reachable buffer with `0 < count < capacity`,
`shrink_to_fit` produces exactly the state `resize count` produces; when
`count ≥ capacity` it is a no-op; neither case errors.  (When
`count = 0 < capacity` the two differ: `shrink_to_fit` sets the capacity
to 0 while `resize 0` errors.) -/
theorem shrink_resize_equiv :
    (∀ (T : Type) (b : CircularBuffer T), Reachable b → 0 < b.count →
      b.count < b.size →
      ∃ b', b.resize b.count = some (Except.ok b') ∧ b.shrink_to_fit = some b') ∧
    (∀ (T : Type) (b : CircularBuffer T), b.size ≤ b.count →
      b.shrink_to_fit = some b) := by
  constructor
  · intro T b hr hc hlt
    obtain ⟨xs, hg⟩ := reachable_good hr
    have hlen := hg.1
    obtain ⟨heqr, _⟩ := resize_ok_spec hg (by omega) (Nat.le_refl _)
    obtain ⟨heqs, _⟩ := shrink_lt_spec hg hlt
    refine ⟨⟨xs.map some, b.count, b.count, 0, b.count⟩, ?_, heqs⟩
    rw [heqr]
    have hbeq : mkBuf 0 b.count xs = xs.map some := by
      rw [mkBuf_zero_tail xs (Nat.le_of_eq hlen), hlen, Nat.sub_self,
        List.replicate_zero, List.append_nil]
    rw [hbeq]
  · intro T b hge
    exact shrink_ge_spec (by omega)

/-- C9 witness: on the reachable state `⟨[some 7, none], 2, 1, 0, 1⟩`
(`count = 1 < capacity = 2`), `resize 1` and `shrink_to_fit` produce the
same state. -/
theorem shrink_resize_equiv_witness :
    ∃ b', resize (⟨[some 7, none], 2, 1, 0, 1⟩ : CircularBuffer Nat)
        (⟨[some 7, none], 2, 1, 0, 1⟩ : CircularBuffer Nat).count =
        some (Except.ok b') ∧
      shrink_to_fit (⟨[some 7, none], 2, 1, 0, 1⟩ : CircularBuffer Nat) = some b' :=
  shrink_resize_equiv.1 Nat _
    (Reachable.of_push ⟨[none, none], 2, 0, 0, 0⟩ 7 _ (Reachable.of_new 2 _ rfl) rfl)
    (by decide) (by decide)

/-- C10: in every reachable state, exactly the `count` slots at indices
`(tail + i) % capacity` for `i < count` hold `Some` values and every other
slot holds `None`; consequently the iterator yields exactly the `count`
logical elements (as a permutation, in raw storage order) and never a
removed one. -/
theorem slot_occupancy {T : Type} (b : CircularBuffer T) (hr : Reachable b) :
    (∀ j, j < b.size →
      ((∃ i, i < b.count ∧ (b.tail + i) % b.size = j) →
        ∃ x, b.buffer.get? j = some (some x)) ∧
      ((¬ ∃ i, i < b.count ∧ (b.tail + i) % b.size = j) →
        b.buffer.get? j = some none)) ∧
    List.Perm b.iterList b.toList ∧ b.iterList.length = b.count := by
  obtain ⟨xs, hg⟩ := reachable_good hr
  have hperm0 := iter_perm hg
  have hlen := hg.1
  have hcs := hg.2.1
  have hbuf := hg.2.2.1
  have hpos := hg.2.2.2.2
  refine ⟨?_, ?_, ?_⟩
  · intro j hj
    have hs : 0 < b.size := by omega
    obtain ⟨ht, _, _⟩ := hpos hs
    constructor
    · rintro ⟨i, hi, rfl⟩
      rw [hbuf, mkBuf_get?_window xs ht (by omega)]
      cases hx : xs.get? i with
      | none =>
        rw [List.get?_eq_none] at hx
        omega
      | some a => exact ⟨a, rfl⟩
    · intro hno
      rw [hbuf, mkBuf_get? b.tail xs hj]
      cases hx : xs.get? ((j + (b.size - b.tail)) % b.size) with
      | none => rfl
      | some a =>
        exfalso
        have hdlt : (j + (b.size - b.tail)) % b.size < xs.length := by
          by_contra hge
          rw [List.get?_eq_none.2 (by omega)] at hx
          exact Option.noConfusion hx
        exact hno ⟨(j + (b.size - b.tail)) % b.size, by omega, mod_unshift ht hj⟩
  · rw [toList_eq hg]
    exact hperm0
  · rw [hperm0.length_eq, hlen]

/-- C10 witness: the slot-occupancy invariant instantiated at the
reachable state `⟨[some 7], 1, 0, 0, 1⟩`. -/
theorem slot_occupancy_witness :
    (∀ j, j < (⟨[some 7], 1, 0, 0, 1⟩ : CircularBuffer Nat).size →
      ((∃ i, i < (⟨[some 7], 1, 0, 0, 1⟩ : CircularBuffer Nat).count ∧
          ((⟨[some 7], 1, 0, 0, 1⟩ : CircularBuffer Nat).tail + i) %
            (⟨[some 7], 1, 0, 0, 1⟩ : CircularBuffer Nat).size = j) →
        ∃ x, (⟨[some 7], 1, 0, 0, 1⟩ : CircularBuffer Nat).buffer.get? j =
          some (some x)) ∧
      ((¬ ∃ i, i < (⟨[some 7], 1, 0, 0, 1⟩ : CircularBuffer Nat).count ∧
          ((⟨[some 7], 1, 0, 0, 1⟩ : CircularBuffer Nat).tail + i) %
            (⟨[some 7], 1, 0, 0, 1⟩ : CircularBuffer Nat).size = j) →
        (⟨[some 7], 1, 0, 0, 1⟩ : CircularBuffer Nat).buffer.get? j = some none)) ∧
    List.Perm (⟨[some 7], 1, 0, 0, 1⟩ : CircularBuffer Nat).iterList
      (⟨[some 7], 1, 0, 0, 1⟩ : CircularBuffer Nat).toList ∧
    (⟨[some 7], 1, 0, 0, 1⟩ : CircularBuffer Nat).iterList.length =
      (⟨[some 7], 1, 0, 0, 1⟩ : CircularBuffer Nat).count :=
  slot_occupancy _
    (Reachable.of_push ⟨[none], 1, 0, 0, 0⟩ 7 _ (Reachable.of_new 1 _ rfl) rfl)

end CircularBuffer
